import Mathlib

/-!
Verification of the random-consensus simulation (`src/main.py` and
`src/demo/simulate_consensus.py`).

A Python `Block` is a record of a height, an optional parent hash and an own
hash.  A `Node` owns a non-empty list of blocks (`self.chain`), whose last
element (`chain[-1]`) is the tip.  We store the chain tip-first: a `Node`
holds its tip and the list `rest` of earlier blocks, newest first, so the
Python list `chain` is `(tip :: rest).reverse`.  This makes the non-emptiness
that the Python code maintains (the chain starts at `[genesis]` and `pop` is
guarded by `len(chain) > 1`) structural.

The two sources of randomness (UUID generation for block hashes,
`random.choice` over the candidate list) are passed in explicitly: `hs i` is
the hash the i-th `Block()` construction of phase 1 draws, and `pick i`
selects (modulo the list length) which candidate the i-th node of phase 2
takes, so every outcome of `random.choice` is realised by some `pick`.
-/

namespace RandomConsensus

/-- A block (`class Block` of `src/main.py`): height, the parent's hash
(`None` for the genesis template, hence an `Option`), and the block's own
hash. -/
structure Block where
  height : Nat
  parent_hash : Option String
  hash : String
deriving DecidableEq

/-- The fixed genesis hash `FIXED_GENESIS_HASH` of `src/main.py`. -/
def FIXED_GENESIS_HASH : String := "00000000-0000-0000-0000-000000000000"

/-- The shared genesis block: height 0, no parent, the fixed hash
(`GENESIS_BLOCK_TEMPLATE` after its hash is overridden). -/
def GENESIS_BLOCK : Block :=
  { height := 0, parent_hash := none, hash := FIXED_GENESIS_HASH }

/-- A node (`class Node`): its id and its chain, stored tip-first.  The
Python list `self.chain` is `(tip :: rest).reverse`. -/
structure Node where
  node_id : Nat
  tip : Block
  rest : List Block
deriving DecidableEq

/-- `Node.__init__`: a fresh node holds one (cloned) genesis block. -/
def create_node (i : Nat) : Node :=
  { node_id := i, tip := GENESIS_BLOCK, rest := [] }

/-- `Node.current_height`: the height of the chain tip (`chain[-1].height`). -/
def Node.current_height (n : Node) : Nat := n.tip.height

/-- `Node.propose_block`: a new block of height `current_height + 1` whose
parent hash is the tip's hash; `h` stands for the freshly drawn UUID. -/
def Node.propose_block (n : Node) (h : String) : Block :=
  { height := n.tip.height + 1, parent_hash := some n.tip.hash, hash := h }

/-- `Node.add_block`: append `block` iff its height is `current_height + 1`
and its parent hash is the tip's hash (two nested `if`s in the source);
otherwise the node is unchanged. -/
def Node.add_block (n : Node) (b : Block) : Node :=
  if b.height = n.current_height + 1 then
    if b.parent_hash = some n.tip.hash then
      { n with tip := b, rest := n.tip :: n.rest }
    else n
  else n

/-- The value a call of Python's `Node.add_block` evaluates to: the method
has no `return` statement, so every call returns `None`.  The spec claims a
boolean return, so the return value is modelled in `Option Bool` (`none` =
Python `None`). -/
def Node.add_block_ret (_n : Node) (_b : Block) : Option Bool := none

/-- `Node.discard_last_block`: pop the tip iff the chain has more than one
element (`rest` non-empty); silent no-op otherwise. -/
def Node.discard_last_block (n : Node) : Node :=
  match n.rest with
  | [] => n
  | b :: bs => { n with tip := b, rest := bs }

/-- The node's chain in Python order (`self.chain`, genesis first). -/
def Node.chain (n : Node) : List Block := (n.tip :: n.rest).reverse

/-- The length of the Python chain list. -/
def Node.chainLength (n : Node) : Nat := n.chain.length

/-- The first element of the Python chain list (`self.chain[0]`), i.e. the
oldest block: the last entry of the tip-first representation. -/
def Node.lastBlock (n : Node) : Block := n.rest.getLastD n.tip

/-- `max(n.current_height() for n in nodes)` (the generator is only run on a
non-empty `nodes`, where the fold from 0 agrees with Python's `max`). -/
def maxHeightOf (nodes : List Node) : Nat :=
  (nodes.map Node.current_height).foldl Nat.max 0

/-- Phase 2 of `random_consensus_round` (`src/main.py` lines 90-102): the
nodes are processed in order, mutating the shared list in place; `done` holds
the already-processed (updated) nodes, `todo` the ones still pending, so the
height maximum read in the else-branch sees the partial progress of earlier
nodes.  Each pending node filters the full proposal list by height only; a
non-empty candidate list leads to `add_block` of the `pick`-chosen candidate,
an empty one to a single rollback when some node is currently higher. -/
def phase2go (proposed : List Block) (pick : Nat → Nat) (done todo : List Node) :
    List Node :=
  match todo with
  | [] => done
  | n :: rest =>
    match proposed.filter (fun b => decide (b.height = n.current_height + 1)) with
    | [] =>
      phase2go proposed pick
        (done ++ [if n.current_height < maxHeightOf (done ++ n :: rest) then
          n.discard_last_block else n]) rest
    | v :: vs =>
      phase2go proposed pick
        (done ++ [n.add_block ((v :: vs).get
          ⟨pick done.length % (vs.length + 1), Nat.mod_lt _ (Nat.succ_pos _)⟩)]) rest

/-- Python dict update `m[k] = m.get(k, 0) + 1`: bump the first entry of the
association list carrying `k`, or append `(k, 1)`, preserving insertion
order exactly as a Python `dict` does. -/
def bump {α : Type} [DecidableEq α] : List (α × Nat) → α → List (α × Nat)
  | [], k => [(k, 1)]
  | (k2, c) :: m, k => if k2 = k then (k2, c + 1) :: m else (k2, c) :: bump m k

/-- The counting loops of phase 3 (`height_count` / `hash_count`): fold the
scanned values into a dict. -/
def buildCounts {α : Type} [DecidableEq α] (l : List α) : List (α × Nat) :=
  l.foldl bump []

/-- The fold behind Python's `max(..., key=...)`: keep the current best and
replace it only on a strictly greater count, so of tied counts the first
(in insertion order) wins. -/
def pickMax {α : Type} (x : α × Nat) (xs : List (α × Nat)) : α × Nat :=
  xs.foldl (fun best y => if best.2 < y.2 then y else best) x

/-- `max(m, key=m.get)` on a Python dict `m`: the first key (in insertion
order) whose count attains the maximum; `none` for the empty dict (where
Python's `max` would raise). -/
def pyMax {α : Type} : List (α × Nat) → Option α
  | [] => none
  | x :: xs => some (pickMax x xs).1

/-- The heights scanned to build `height_count`. -/
def heightsOf (nodes : List Node) : List Nat := nodes.map Node.current_height

/-- The tip hashes scanned to build `hash_count`: those of the nodes at the
majority height, in node order. -/
def tipsAt (nodes : List Node) (mh : Nat) : List String :=
  (nodes.filter fun n => decide (n.current_height = mh)).map fun n => n.tip.hash

/-- Lines 131-135 of `src/main.py`: the tip of the first node whose height is
the majority height and whose tip hash is the majority hash. -/
def findReference (mh : Nat) (mhash : String) (nodes : List Node) : Option Block :=
  (nodes.find? fun n =>
    decide (n.current_height = mh) && decide (n.tip.hash = mhash)).map Node.tip

/-- The adopted block of phase 4: height and hash copied from the reference
block, parent hash forced to the adopting node's current tip hash
(`adopted = Block(reference_block.height, node.chain[-1].hash);
adopted.hash = reference_block.hash`). -/
def adoptedBlock (ref : Block) (n : Node) : Block :=
  { height := ref.height, parent_hash := some n.tip.hash, hash := ref.hash }

/-- The `while node.current_height() >= majority_height and len(node.chain) > 1`
rollback loop of phase 4. -/
def rollbackWhile (mh : Nat) (n : Node) : Node :=
  if mh ≤ n.current_height then
    match h : n.rest with
    | [] => n
    | b :: bs => rollbackWhile mh { n with tip := b, rest := bs }
  else n
termination_by n.rest.length
decreasing_by simp [h]

/-- Phase 4 treatment of one node (`src/main.py` lines 142-168): a node
behind the majority height runs the rollback loop and then adopts when its
height is exactly one less than the reference height; a node at the majority
height with a differing tip hash rolls back once and then adopts under the
same height test; any other node is untouched. -/
def phase4node (mh : Nat) (mhash : String) (ref : Block) (n : Node) : Node :=
  if n.current_height < mh then
    if (rollbackWhile mh n).current_height + 1 = ref.height then
      (rollbackWhile mh n).add_block (adoptedBlock ref (rollbackWhile mh n))
    else rollbackWhile mh n
  else if n.current_height = mh then
    if n.tip.hash ≠ mhash then
      if n.discard_last_block.current_height + 1 = ref.height then
        n.discard_last_block.add_block (adoptedBlock ref n.discard_last_block)
      else n.discard_last_block
    else n
  else n

/-- The reconcile step: no reference block means the round ends with no
effect; otherwise every node is treated independently by `phase4node`. -/
def reconcile (mh : Nat) (mhash : String) (nodes : List Node) : List Node :=
  match findReference mh mhash nodes with
  | none => nodes
  | some ref => nodes.map (phase4node mh mhash ref)

/-- Phases 3 and 4 of `random_consensus_round`: majority height, majority
hash among the nodes at that height, then reconcile; each `not ...: return`
guard of the source is a `none` branch here. -/
def phase34 (nodes : List Node) : List Node :=
  match pyMax (buildCounts (heightsOf nodes)) with
  | none => nodes
  | some mh =>
    match pyMax (buildCounts (tipsAt nodes mh)) with
    | none => nodes
    | some mhash => reconcile mh mhash nodes

/-- One round of `random_consensus_round` of `src/main.py`: collect one
proposal per node (the i-th drawing hash `hs i`), run phase 2 over the nodes
in order, then aggregate and reconcile. -/
def random_consensus_round (hs : Nat → String) (pick : Nat → Nat)
    (nodes : List Node) : List Node :=
  let proposed := nodes.enum.map fun p => p.2.propose_block (hs p.1)
  phase34 (phase2go proposed pick [] nodes)

/-- The node lists the simulation can be in: some freshly created nodes,
then any number of rounds. -/
inductive Reachable : List Node → Prop
  | init (ids : List Nat) : Reachable (ids.map create_node)
  | step (hs : Nat → String) (pick : Nat → Nat) (ns : List Node) :
      Reachable ns → Reachable (random_consensus_round hs pick ns)

/-- Adjacency of two neighbouring chain entries in Python order (`earlier`
sits at index i, `later` at i+1): the later block's parent hash is the
earlier block's hash and its height is one more. -/
def adjacent (earlier later : Block) : Prop :=
  later.parent_hash = some earlier.hash ∧ later.height = earlier.height + 1

instance : DecidableRel adjacent := fun _ _ => instDecidableAnd

/-- The chain adjacency invariant of the spec (§3): every adjacent pair of
the node's chain is linked. -/
def chainInv (n : Node) : Prop := List.Chain' adjacent n.chain

instance (n : Node) : Decidable (chainInv n) :=
  inferInstanceAs (Decidable (List.Chain' adjacent n.chain))

namespace Demo

/-- Phase 2 of `random_consensus_round` in `src/demo/simulate_consensus.py`
(lines 54-63), the same select-or-correct loop as the main engine's. -/
def phase2go (proposed : List Block) (pick : Nat → Nat) (done todo : List Node) :
    List Node :=
  match todo with
  | [] => done
  | n :: rest =>
    match proposed.filter (fun b => decide (b.height = n.current_height + 1)) with
    | [] =>
      phase2go proposed pick
        (done ++ [if n.current_height < maxHeightOf (done ++ n :: rest) then
          n.discard_last_block else n]) rest
    | v :: vs =>
      phase2go proposed pick
        (done ++ [n.add_block ((v :: vs).get
          ⟨pick done.length % (vs.length + 1), Nat.mod_lt _ (Nat.succ_pos _)⟩)]) rest

/-- `random_consensus_round` of `src/demo/simulate_consensus.py`: propose,
select-or-correct, then compute the height majority (dead for the node
state: the demo does no adoption) and return the per-node summary records
`(node_id, height, hash[:6])` alongside the mutated nodes.  Unlike
`src/main.py` (lines 113-114), the demo has no `if not height_count:`
guard before `max(height_count, key=height_count.get)` (line 71), so on an
empty node collection the dict is empty and `max` raises `ValueError`:
that uncaught raise is the `none` result. -/
def random_consensus_round (hs : Nat → String) (pick : Nat → Nat)
    (nodes : List Node) : Option (List Node × List (Nat × Nat × String)) :=
  let proposed := nodes.enum.map fun p => p.2.propose_block (hs p.1)
  let nodes2 := phase2go proposed pick [] nodes
  match pyMax (buildCounts (heightsOf nodes2)) with
  | none => none
  | some _ =>
    some (nodes2, nodes2.map fun n => (n.node_id, n.current_height, n.tip.hash.take 6))

end Demo

/-- Occurrence count of `k` in `l` (specification-side helper). -/
def countC {α : Type} [DecidableEq α] : List α → α → Nat
  | [], _ => 0
  | a :: l, k => (if a = k then 1 else 0) + countC l k

/-- Index of the first occurrence of `k` in `l` (`l.length` when absent;
specification-side helper). -/
def firstIdx {α : Type} [DecidableEq α] : List α → α → Nat
  | [], _ => 0
  | a :: l, k => if a = k then 0 else firstIdx l k + 1

/-- What the spec says the majority pick is: an element of the scanned list
whose count is maximal, and of the tied maxima the one encountered first in
scan order. -/
def majorityProps {α : Type} [DecidableEq α] (l : List α) (x : α) : Prop :=
  x ∈ l ∧ (∀ y ∈ l, countC l y ≤ countC l x) ∧
    (∀ y ∈ l, countC l y = countC l x → firstIdx l x ≤ firstIdx l y)

theorem add_block_pos {n : Node} {b : Block} (h1 : b.height = n.current_height + 1)
    (h2 : b.parent_hash = some n.tip.hash) :
    n.add_block b = { n with tip := b, rest := n.tip :: n.rest } := by
  simp [Node.add_block, h1, h2]

theorem add_block_neg_height {n : Node} {b : Block}
    (h1 : b.height ≠ n.current_height + 1) : n.add_block b = n := by
  simp [Node.add_block, h1]

theorem add_block_neg_parent {n : Node} {b : Block}
    (h2 : b.parent_hash ≠ some n.tip.hash) : n.add_block b = n := by
  unfold Node.add_block
  split
  · simp [h2]
  · rfl

theorem discard_nil {n : Node} (h : n.rest = []) : n.discard_last_block = n := by
  simp [Node.discard_last_block, h]

theorem discard_cons {n : Node} {b : Block} {bs : List Block} (h : n.rest = b :: bs) :
    n.discard_last_block = { n with tip := b, rest := bs } := by
  simp [Node.discard_last_block, h]

theorem chainInv_iff (n : Node) :
    chainInv n ↔ List.Chain' (flip adjacent) (n.tip :: n.rest) := by
  unfold chainInv Node.chain
  exact List.chain'_reverse

theorem chainInv_add_block {n : Node} (b : Block) (h : chainInv n) :
    chainInv (n.add_block b) := by
  unfold Node.add_block
  split
  · split
    · rw [chainInv_iff] at h ⊢
      refine List.chain'_cons.mpr ⟨⟨by assumption, by assumption⟩, h⟩
    · exact h
  · exact h

theorem chainInv_discard {n : Node} (h : chainInv n) :
    chainInv n.discard_last_block := by
  unfold Node.discard_last_block
  split
  · exact h
  · rename_i b bs hr
    rw [chainInv_iff] at h
    rw [hr] at h
    rw [chainInv_iff]
    exact h.tail

theorem tip_height_of_inv {n : Node} {b : Block} {bs : List Block}
    (h : chainInv n) (hr : n.rest = b :: bs) : n.tip.height = b.height + 1 := by
  rw [chainInv_iff, hr] at h
  exact (List.chain'_cons.mp h).1.2

theorem rollbackWhile_preserve (P : Node → Prop)
    (hD : ∀ n, P n → P n.discard_last_block) (mh : Nat) :
    ∀ n, P n → P (rollbackWhile mh n) := by
  suffices H : ∀ (L : Nat) (n : Node), n.rest.length = L → P n → P (rollbackWhile mh n) from
    fun n h => H n.rest.length n rfl h
  intro L
  induction L with
  | zero =>
    intro n hL h
    unfold rollbackWhile
    split
    · split
      · exact h
      · rename_i b bs hr
        rw [hr] at hL
        simp at hL
    · exact h
  | succ L ih =>
    intro n hL h
    unfold rollbackWhile
    split
    · split
      · exact h
      · rename_i b bs hr
        have hd : n.discard_last_block = { n with tip := b, rest := bs } := discard_cons hr
        have : P { n with tip := b, rest := bs } := hd ▸ hD n h
        apply ih
        · rw [hr] at hL
          simpa using Nat.succ_injective hL
        · exact this
    · exact h

theorem phase4node_preserve (P : Node → Prop)
    (hA : ∀ n b, P n → P (n.add_block b)) (hD : ∀ n, P n → P n.discard_last_block)
    (mh : Nat) (mhash : String) (ref : Block) :
    ∀ n, P n → P (phase4node mh mhash ref n) := by
  intro n h
  unfold phase4node
  split
  · have h1 := rollbackWhile_preserve P hD mh n h
    split
    · exact hA _ _ h1
    · exact h1
  · split
    · split
      · have h2 := hD n h
        split
        · exact hA _ _ h2
        · exact h2
      · exact h
    · exact h

theorem phase2go_nil (proposed : List Block) (pick : Nat → Nat) (done : List Node) :
    phase2go proposed pick done [] = done := rfl

theorem phase2go_preserve (P : Node → Prop)
    (hA : ∀ n b, P n → P (n.add_block b)) (hD : ∀ n, P n → P n.discard_last_block)
    (proposed : List Block) (pick : Nat → Nat) :
    ∀ (todo done : List Node), (∀ x ∈ done, P x) → (∀ x ∈ todo, P x) →
      ∀ x ∈ phase2go proposed pick done todo, P x := by
  intro todo
  induction todo with
  | nil =>
    intro done hd _ x hx
    rw [phase2go_nil] at hx
    exact hd x hx
  | cons n rest ih =>
    intro done hd ht x hx
    unfold phase2go at hx
    have hn : P n := ht n (by simp)
    have hrest : ∀ x ∈ rest, P x := fun x hx => ht x (by simp [hx])
    split at hx
    · refine ih _ ?_ hrest x hx
      intro z hz
      rcases List.mem_append.mp hz with hz | hz
      · exact hd z hz
      · simp at hz
        subst hz
        split
        · exact hD n hn
        · exact hn
    · refine ih _ ?_ hrest x hx
      intro z hz
      rcases List.mem_append.mp hz with hz | hz
      · exact hd z hz
      · simp at hz
        subst hz
        exact hA _ _ hn

theorem reconcile_preserve (P : Node → Prop)
    (hA : ∀ n b, P n → P (n.add_block b)) (hD : ∀ n, P n → P n.discard_last_block)
    (mh : Nat) (mhash : String) (ns : List Node) (h : ∀ x ∈ ns, P x) :
    ∀ x ∈ reconcile mh mhash ns, P x := by
  unfold reconcile
  split
  · exact h
  · intro x hx
    rcases List.mem_map.mp hx with ⟨y, hy, rfl⟩
    exact phase4node_preserve P hA hD _ _ _ y (h y hy)

theorem phase34_preserve (P : Node → Prop)
    (hA : ∀ n b, P n → P (n.add_block b)) (hD : ∀ n, P n → P n.discard_last_block)
    (ns : List Node) (h : ∀ x ∈ ns, P x) : ∀ x ∈ phase34 ns, P x := by
  unfold phase34
  split
  · exact h
  · split
    · exact h
    · exact reconcile_preserve P hA hD _ _ ns h

theorem round_preserve (P : Node → Prop)
    (hA : ∀ n b, P n → P (n.add_block b)) (hD : ∀ n, P n → P n.discard_last_block)
    (hs : Nat → String) (pick : Nat → Nat) (ns : List Node) (h : ∀ x ∈ ns, P x) :
    ∀ x ∈ random_consensus_round hs pick ns, P x := by
  unfold random_consensus_round
  refine phase34_preserve P hA hD _ ?_
  exact phase2go_preserve P hA hD _ _ ns [] (by simp) h

theorem reachable_preserve (P : Node → Prop)
    (hA : ∀ n b, P n → P (n.add_block b)) (hD : ∀ n, P n → P n.discard_last_block)
    (hInit : ∀ i, P (create_node i)) :
    ∀ {ns : List Node}, Reachable ns → ∀ x ∈ ns, P x := by
  intro ns h
  induction h with
  | init ids =>
    intro x hx
    rcases List.mem_map.mp hx with ⟨i, _, rfl⟩
    exact hInit i
  | step hs pick ms _ ih =>
    exact round_preserve P hA hD hs pick ms ih

theorem chainInv_create (i : Nat) : chainInv (create_node i) := by
  simp [chainInv, create_node, Node.chain]

theorem chainInv_reachable {ns : List Node} (h : Reachable ns) :
    ∀ x ∈ ns, chainInv x :=
  reachable_preserve chainInv (fun n b hn => chainInv_add_block b hn)
    (fun n hn => chainInv_discard hn) chainInv_create h

theorem lastBlock_add_block (n : Node) (b : Block) :
    (n.add_block b).lastBlock = n.lastBlock := by
  unfold Node.add_block
  split
  · split
    · simp only [Node.lastBlock, List.getLastD_cons]
    · rfl
  · rfl

theorem lastBlock_discard (n : Node) :
    n.discard_last_block.lastBlock = n.lastBlock := by
  unfold Node.discard_last_block
  split
  · rfl
  · rename_i b bs hr
    simp only [Node.lastBlock, hr, List.getLastD_cons]

theorem lastBlock_reachable {ns : List Node} (h : Reachable ns) :
    ∀ x ∈ ns, x.lastBlock = GENESIS_BLOCK :=
  reachable_preserve (fun x => x.lastBlock = GENESIS_BLOCK)
    (fun n b hn => (lastBlock_add_block n b).trans hn)
    (fun n hn => (lastBlock_discard n).trans hn)
    (fun _ => rfl) h

section Counting

variable {α : Type} [DecidableEq α]

theorem countC_append_singleton (l : List α) (a k : α) :
    countC (l ++ [a]) k = countC l k + (if a = k then 1 else 0) := by
  induction l with
  | nil => simp [countC]
  | cons b l ih => simp [countC, ih]; omega

theorem countC_eq_zero {l : List α} {a : α} (h : a ∉ l) : countC l a = 0 := by
  induction l with
  | nil => rfl
  | cons b l ih =>
    have hb : b ≠ a := fun hba => h (hba ▸ List.mem_cons_self b l)
    simp [countC, hb, ih (fun hl => h (List.mem_cons_of_mem b hl))]

theorem firstIdx_lt_length {l : List α} {k : α} (h : k ∈ l) :
    firstIdx l k < l.length := by
  induction l with
  | nil => cases h
  | cons b l ih =>
    by_cases hb : b = k
    · simp [firstIdx, hb]
    · have : k ∈ l := by
        rcases List.mem_cons.mp h with h | h
        · exact absurd h.symm hb
        · exact h
      simp [firstIdx, hb]
      exact ih this

theorem firstIdx_append_left {l : List α} {k : α} (l2 : List α) (h : k ∈ l) :
    firstIdx (l ++ l2) k = firstIdx l k := by
  induction l with
  | nil => cases h
  | cons b l ih =>
    by_cases hb : b = k
    · simp [firstIdx, hb]
    · have : k ∈ l := by
        rcases List.mem_cons.mp h with h | h
        · exact absurd h.symm hb
        · exact h
      simp [firstIdx, hb, ih this]

theorem firstIdx_append_right {l : List α} {k : α} (l2 : List α) (h : k ∉ l) :
    firstIdx (l ++ l2) k = l.length + firstIdx l2 k := by
  induction l with
  | nil => simp [firstIdx]
  | cons b l ih =>
    have hb : b ≠ k := fun hba => h (hba ▸ List.mem_cons_self b l)
    simp [firstIdx, hb, ih (fun hl => h (List.mem_cons_of_mem b hl))]
    omega

theorem bump_ne_nil (m : List (α × Nat)) (a : α) : bump m a ≠ [] := by
  match m with
  | [] => simp [bump]
  | (k, c) :: m =>
    unfold bump
    split <;> simp

theorem bump_eq_append {m : List (α × Nat)} {a : α}
    (h : a ∉ m.map Prod.fst) : bump m a = m ++ [(a, 1)] := by
  induction m with
  | nil => rfl
  | cons p m ih =>
    obtain ⟨k, c⟩ := p
    have hk : k ≠ a := by
      intro hka
      exact h (by simp [hka])
    simp only [bump, hk, if_false]
    rw [ih (fun hm => h (by simp [hm]))]
    rfl

theorem map_bumpIf_id {m : List (α × Nat)} {a : α} (h : ∀ q ∈ m, q.1 ≠ a) :
    (m.map fun p => if p.1 = a then (p.1, p.2 + 1) else p) = m := by
  induction m with
  | nil => rfl
  | cons q m ih =>
    simp only [List.map_cons, if_neg (h q (by simp))]
    rw [ih fun q hq => h q (by simp [hq])]

theorem bump_eq_map {m : List (α × Nat)} {a : α}
    (hnd : (m.map Prod.fst).Nodup) (hmem : a ∈ m.map Prod.fst) :
    bump m a = m.map fun p => if p.1 = a then (p.1, p.2 + 1) else p := by
  induction m with
  | nil => cases hmem
  | cons p m ih =>
    obtain ⟨k, c⟩ := p
    by_cases hk : k = a
    · subst hk
      have hnot : ∀ q ∈ m, q.1 ≠ k := by
        intro q hq hqk
        have hknd : k ∉ m.map Prod.fst := (List.nodup_cons.mp (by simpa using hnd)).1
        exact hknd (hqk ▸ List.mem_map_of_mem Prod.fst hq)
      simp [bump, map_bumpIf_id hnot]
    · have hmem2 : a ∈ m.map Prod.fst := by
        rcases List.mem_map.mp hmem with ⟨q, hq, hqa⟩
        rcases List.mem_cons.mp hq with hq | hq
        · rw [hq] at hqa
          exact absurd hqa hk
        · exact hqa ▸ List.mem_map_of_mem Prod.fst hq
      have hnd2 : (m.map Prod.fst).Nodup := (List.nodup_cons.mp (by simpa using hnd)).2
      simp only [bump, if_neg hk, List.map_cons, if_neg hk]
      rw [ih hnd2 hmem2]

theorem buildCounts_append_singleton (l : List α) (a : α) :
    buildCounts (l ++ [a]) = bump (buildCounts l) a := by
  unfold buildCounts
  rw [List.foldl_append]
  rfl

theorem buildCounts_good (l : List α) :
    (∀ p ∈ buildCounts l, p.1 ∈ l ∧ p.2 = countC l p.1) ∧
    (∀ k ∈ l, ∃ c, (k, c) ∈ buildCounts l) ∧
    ((buildCounts l).map Prod.fst).Nodup ∧
    (buildCounts l).Pairwise (fun p q => firstIdx l p.1 < firstIdx l q.1) := by
  induction l using List.reverseRecOn with
  | nil => simp [buildCounts]
  | append_singleton l a ih =>
    obtain ⟨hent, hcov, hnd, hpw⟩ := ih
    rw [buildCounts_append_singleton]
    by_cases ha : a ∈ (buildCounts l).map Prod.fst
    · have hal : a ∈ l := by
        rcases List.mem_map.mp ha with ⟨p, hp, hpa⟩
        exact hpa ▸ (hent p hp).1
      rw [bump_eq_map hnd ha]
      refine ⟨?_, ?_, ?_, ?_⟩
      · intro p hp
        rcases List.mem_map.mp hp with ⟨q, hq, rfl⟩
        obtain ⟨hq1, hq2⟩ := hent q hq
        by_cases hqa : q.1 = a
        · simp only [if_pos hqa]
          refine ⟨List.mem_append_left _ hq1, ?_⟩
          rw [countC_append_singleton, if_pos hqa.symm, hq2]
        · simp only [if_neg hqa]
          refine ⟨List.mem_append_left _ hq1, ?_⟩
          rw [countC_append_singleton, if_neg (fun h => hqa h.symm), hq2]
          omega
      · intro k hk
        rcases List.mem_append.mp hk with hk | hk
        · obtain ⟨c, hc⟩ := hcov k hk
          by_cases hka : k = a
          · exact ⟨c + 1, by
              simpa [hka] using List.mem_map_of_mem
                (fun p : α × Nat => if p.1 = a then (p.1, p.2 + 1) else p) hc⟩
          · exact ⟨c, by
              simpa [hka] using List.mem_map_of_mem
                (fun p : α × Nat => if p.1 = a then (p.1, p.2 + 1) else p) hc⟩
        · simp only [List.mem_singleton] at hk
          subst hk
          obtain ⟨c, hc⟩ := hcov k hal
          exact ⟨c + 1, by
            simpa using List.mem_map_of_mem
              (fun p : α × Nat => if p.1 = k then (p.1, p.2 + 1) else p) hc⟩
      · have hfun : (Prod.fst ∘ fun p : α × Nat =>
            if p.1 = a then (p.1, p.2 + 1) else p) = Prod.fst := by
          funext p
          by_cases h : p.1 = a <;> simp [h]
        rw [List.map_map, hfun]
        exact hnd
      · rw [List.pairwise_map]
        refine hpw.imp_of_mem ?_
        intro p q hp hq hrel
        have hfp : (if p.1 = a then (p.1, p.2 + 1) else p).1 = p.1 := by
          by_cases h : p.1 = a <;> simp [h]
        have hfq : (if q.1 = a then (q.1, q.2 + 1) else q).1 = q.1 := by
          by_cases h : q.1 = a <;> simp [h]
        rw [hfp, hfq, firstIdx_append_left _ (hent p hp).1,
          firstIdx_append_left _ (hent q hq).1]
        exact hrel
    · have hal : a ∉ l := fun hl => by
        obtain ⟨c, hc⟩ := hcov a hl
        exact ha (List.mem_map_of_mem Prod.fst hc)
      rw [bump_eq_append ha]
      refine ⟨?_, ?_, ?_, ?_⟩
      · intro p hp
        rcases List.mem_append.mp hp with hp | hp
        · obtain ⟨hp1, hp2⟩ := hent p hp
          refine ⟨List.mem_append_left _ hp1, ?_⟩
          have hne : a ≠ p.1 := fun he => hal (he ▸ hp1)
          rw [countC_append_singleton, if_neg hne, hp2]
          omega
        · simp only [List.mem_singleton] at hp
          subst hp
          refine ⟨List.mem_append_right _ (by simp), ?_⟩
          rw [countC_append_singleton, if_pos rfl, countC_eq_zero hal]
      · intro k hk
        rcases List.mem_append.mp hk with hk | hk
        · obtain ⟨c, hc⟩ := hcov k hk
          exact ⟨c, List.mem_append_left _ hc⟩
        · simp only [List.mem_singleton] at hk
          subst hk
          exact ⟨1, List.mem_append_right _ (by simp)⟩
      · rw [List.map_append, List.nodup_append]
        refine ⟨hnd, by simp, ?_⟩
        intro x hx hx2
        simp only [List.map_cons, List.map_nil, List.mem_singleton] at hx2
        exact ha (hx2 ▸ hx)
      · rw [List.pairwise_append]
        refine ⟨hpw.imp_of_mem ?_, by simp, ?_⟩
        · intro p q hp hq hrel
          rw [firstIdx_append_left _ (hent p hp).1, firstIdx_append_left _ (hent q hq).1]
          exact hrel
        · intro p hp q hq
          simp only [List.mem_singleton] at hq
          subst hq
          rw [firstIdx_append_left _ (hent p hp).1, firstIdx_append_right _ hal]
          have := firstIdx_lt_length (hent p hp).1
          simp only [firstIdx]
          omega

theorem pickMax_cons (x y : α × Nat) (xs : List (α × Nat)) :
    pickMax x (y :: xs) = pickMax (if x.2 < y.2 then y else x) xs := rfl

theorem pickMax_decomp : ∀ (xs : List (α × Nat)) (x : α × Nat),
    ∃ pre post, x :: xs = pre ++ pickMax x xs :: post ∧
      (∀ p ∈ pre, p.2 < (pickMax x xs).2) ∧
      (∀ p ∈ x :: xs, p.2 ≤ (pickMax x xs).2) := by
  intro xs
  induction xs with
  | nil =>
    intro x
    refine ⟨[], [], rfl, by simp, ?_⟩
    intro p hp
    simp only [List.mem_singleton] at hp
    subst hp
    exact le_refl _
  | cons y xs ih =>
    intro x
    rw [pickMax_cons]
    by_cases hxy : x.2 < y.2
    · rw [if_pos hxy]
      obtain ⟨pre, post, hdec, hpre, hall⟩ := ih y
      refine ⟨x :: pre, post, ?_, ?_, ?_⟩
      · rw [List.cons_append, ← hdec]
      · intro p hp
        rcases List.mem_cons.mp hp with rfl | hp
        · exact lt_of_lt_of_le hxy (hall y (by simp))
        · exact hpre p hp
      · intro p hp
        rcases List.mem_cons.mp hp with rfl | hp
        · exact le_of_lt (lt_of_lt_of_le hxy (hall y (by simp)))
        · exact hall p hp
    · rw [if_neg hxy]
      obtain ⟨pre, post, hdec, hpre, hall⟩ := ih x
      cases pre with
      | nil =>
        rw [List.nil_append] at hdec
        injection hdec with h1 h2
        refine ⟨[], y :: xs, ?_, by simp, ?_⟩
        · rw [List.nil_append, ← h1]
        · intro p hp
          rcases List.mem_cons.mp hp with rfl | hp
          · exact hall p (by simp)
          rcases List.mem_cons.mp hp with rfl | hp
          · exact le_trans (Nat.le_of_not_lt hxy) (hall x (by simp))
          · exact hall p (List.mem_cons_of_mem x hp)
      | cons p0 pre2 =>
        rw [List.cons_append] at hdec
        injection hdec with h1 h2
        have hx2 : x.2 < (pickMax x xs).2 := by
          have := hpre p0 (by simp)
          rw [← h1] at this
          exact this
        refine ⟨x :: y :: pre2, post, ?_, ?_, ?_⟩
        · rw [List.cons_append, List.cons_append, ← h2]
        · intro p hp
          rcases List.mem_cons.mp hp with rfl | hp
          · exact hx2
          rcases List.mem_cons.mp hp with rfl | hp
          · exact lt_of_le_of_lt (Nat.le_of_not_lt hxy) hx2
          · exact hpre p (by simp [hp])
        · intro p hp
          rcases List.mem_cons.mp hp with rfl | hp
          · exact hall p (by simp)
          rcases List.mem_cons.mp hp with rfl | hp
          · exact le_trans (Nat.le_of_not_lt hxy) (hall x (by simp))
          · exact hall p (by simp [hp])

theorem pyMax_buildCounts_majority {l : List α} {x : α}
    (hx : pyMax (buildCounts l) = some x) : majorityProps l x := by
  obtain ⟨hent, hcov, hnd, hpw⟩ := buildCounts_good l
  cases hbc : buildCounts l with
  | nil =>
    rw [hbc] at hx
    cases hx
  | cons e es =>
    rw [hbc] at hx hent hcov hpw
    have hx1 : x = (pickMax e es).1 := by
      simp only [pyMax, Option.some.injEq] at hx
      exact hx.symm
    obtain ⟨pre, post, hdec, hpre, hall⟩ := pickMax_decomp es e
    have hrmem : pickMax e es ∈ e :: es := by
      rw [hdec]
      exact List.mem_append_right _ (by simp)
    obtain ⟨hrl, hrc⟩ := hent _ hrmem
    subst hx1
    refine ⟨hrl, ?_, ?_⟩
    · intro y hy
      obtain ⟨c, hcmem⟩ := hcov y hy
      have hcy : c = countC l y := (hent _ hcmem).2
      have hle : c ≤ (pickMax e es).2 := hall (y, c) hcmem
      rw [hcy] at hle
      rw [← hrc]
      exact hle
    · intro y hy hcnt
      obtain ⟨c, hcmem⟩ := hcov y hy
      have hcy : c = countC l y := (hent _ hcmem).2
      have hloc : (y, c) ∈ pre ++ pickMax e es :: post := hdec ▸ hcmem
      rcases List.mem_append.mp hloc with hin | hin
      · exfalso
        have hlt : c < (pickMax e es).2 := hpre _ hin
        rw [hcy, hrc] at hlt
        omega
      · rcases List.mem_cons.mp hin with heq | hin
        · have hyx : y = (pickMax e es).1 := by
            rw [← heq]
          exact hyx ▸ le_refl _
        · have hpw2 : List.Pairwise (fun p q : α × Nat =>
              firstIdx l p.1 < firstIdx l q.1) (pre ++ pickMax e es :: post) :=
            hdec ▸ hpw
          have hmid := (List.pairwise_append.mp hpw2).2.1
          have hrel := List.rel_of_pairwise_cons hmid hin
          exact le_of_lt hrel

theorem foldl_bump_ne_nil :
    ∀ (l : List α) (m : List (α × Nat)), m ≠ [] → List.foldl bump m l ≠ [] := by
  intro l
  induction l with
  | nil =>
    intro m hm
    simpa using hm
  | cons a l ih =>
    intro m _
    exact ih _ (bump_ne_nil m a)

theorem buildCounts_ne_nil {l : List α} (h : l ≠ []) : buildCounts l ≠ [] := by
  cases l with
  | nil => exact absurd rfl h
  | cons a l =>
    unfold buildCounts
    simp only [List.foldl_cons]
    exact foldl_bump_ne_nil l _ (bump_ne_nil [] a)

theorem pyMax_buildCounts_some {l : List α} (h : l ≠ []) :
    ∃ x, pyMax (buildCounts l) = some x := by
  cases hbc : buildCounts l with
  | nil => exact absurd hbc (buildCounts_ne_nil h)
  | cons e es =>
    refine ⟨(pickMax e es).1, ?_⟩
    rfl

theorem pyMax_buildCounts_mem {l : List α} {x : α}
    (h : pyMax (buildCounts l) = some x) : x ∈ l :=
  (pyMax_buildCounts_majority h).1

theorem buildCounts_const {l : List α} {c : α} :
    ∀ k, (∀ x ∈ l, x = c) → List.foldl bump [(c, k)] l = [(c, k + l.length)] := by
  induction l with
  | nil => intro k _; simp
  | cons a l ih =>
    intro k hc
    have ha : a = c := hc a (by simp)
    subst ha
    simp only [List.foldl_cons, bump, if_pos rfl, eq_self_iff_true, if_true]
    rw [ih (k + 1) (fun x hx => hc x (by simp [hx]))]
    simp only [List.length_cons]
    rw [show k + 1 + l.length = k + (l.length + 1) from by omega]

theorem pyMax_buildCounts_const {l : List α} {c : α} (hne : l ≠ [])
    (hc : ∀ x ∈ l, x = c) : pyMax (buildCounts l) = some c := by
  cases l with
  | nil => exact absurd rfl hne
  | cons a l =>
    have ha : a = c := hc a (by simp)
    subst ha
    unfold buildCounts
    simp only [List.foldl_cons, bump]
    rw [buildCounts_const 1 (fun x hx => hc x (by simp [hx]))]
    rfl

end Counting

theorem phase2go_cons_nil (proposed : List Block) (pick : Nat → Nat)
    (done : List Node) (n : Node) (todo : List Node)
    (hf : proposed.filter (fun b => decide (b.height = n.current_height + 1)) = []) :
    phase2go proposed pick done (n :: todo) =
      phase2go proposed pick
        (done ++ [if n.current_height < maxHeightOf (done ++ n :: todo) then
          n.discard_last_block else n]) todo := by
  conv_lhs => rw [phase2go]
  rw [hf]

theorem phase2go_cons_sel (proposed : List Block) (pick : Nat → Nat)
    (done : List Node) (n : Node) (todo : List Node) (v : Block) (vs : List Block)
    (hf : proposed.filter (fun b => decide (b.height = n.current_height + 1)) = v :: vs) :
    phase2go proposed pick done (n :: todo) =
      phase2go proposed pick
        (done ++ [n.add_block ((v :: vs).get
          ⟨pick done.length % (vs.length + 1), Nat.mod_lt _ (Nat.succ_pos _)⟩)]) todo := by
  conv_lhs => rw [phase2go]
  rw [hf]

theorem rollbackWhile_of_lt {mh : Nat} {n : Node} (h : n.current_height < mh) :
    rollbackWhile mh n = n := by
  unfold rollbackWhile
  rw [if_neg (by omega)]

theorem findReference_props {mh : Nat} {mhash : String} {ns : List Node} {ref : Block}
    (h : findReference mh mhash ns = some ref) : ref.height = mh ∧ ref.hash = mhash := by
  unfold findReference at h
  rcases Option.map_eq_some'.mp h with ⟨rn, hrn, hrt⟩
  have hp := List.find?_some hrn
  simp only [Bool.and_eq_true, decide_eq_true_eq] at hp
  subst hrt
  exact ⟨hp.1, hp.2⟩

theorem findReference_of_exists {mh : Nat} {mhash : String} {ns : List Node}
    (h : ∃ n ∈ ns, n.current_height = mh ∧ n.tip.hash = mhash) :
    ∃ ref, findReference mh mhash ns = some ref ∧ ref.height = mh ∧ ref.hash = mhash := by
  have hsome : (ns.find? fun n =>
      decide (n.current_height = mh) && decide (n.tip.hash = mhash)).isSome := by
    rw [List.find?_isSome]
    obtain ⟨n, hn, h1, h2⟩ := h
    exact ⟨n, hn, by simp [h1, h2]⟩
  rcases Option.isSome_iff_exists.mp hsome with ⟨rn, hrn⟩
  have hp := List.find?_some hrn
  simp only [Bool.and_eq_true, decide_eq_true_eq] at hp
  refine ⟨rn.tip, ?_, hp.1, hp.2⟩
  unfold findReference
  rw [hrn]
  rfl

theorem phase34_eq {ns : List Node} {mh : Nat} {mhash : String} {ref : Block}
    (h1 : pyMax (buildCounts (heightsOf ns)) = some mh)
    (h2 : pyMax (buildCounts (tipsAt ns mh)) = some mhash)
    (h3 : findReference mh mhash ns = some ref) :
    phase34 ns = ns.map (phase4node mh mhash ref) := by
  unfold phase34 reconcile
  rw [h1]
  dsimp only
  rw [h2]
  dsimp only
  rw [h3]

theorem phase4node_same_height {mh : Nat} {mhash : String} {ref : Block}
    {n : Node} {r : Block} {rs : List Block}
    (hh : n.current_height = mh) (hrest : n.rest = r :: rs) (hr : r.height + 1 = mh)
    (href : ref.height = mh) (hrhash : ref.hash = mhash) :
    (phase4node mh mhash ref n).current_height = mh ∧
      (phase4node mh mhash ref n).tip.hash = mhash := by
  unfold phase4node
  rw [if_neg (by omega : ¬ n.current_height < mh), if_pos hh]
  by_cases ht : n.tip.hash = mhash
  · rw [if_neg (fun hc => hc ht)]
    exact ⟨hh, ht⟩
  · rw [if_pos ht]
    have hd : n.discard_last_block = { n with tip := r, rest := rs } := discard_cons hrest
    rw [hd]
    have hdh : ({ n with tip := r, rest := rs } : Node).current_height = r.height := rfl
    rw [if_pos (by rw [hdh]; omega)]
    rw [add_block_pos (by simp [adoptedBlock, Node.current_height]; omega)
      (by simp [adoptedBlock])]
    constructor
    · show (adoptedBlock ref { n with tip := r, rest := rs }).height = mh
      simpa [adoptedBlock] using href
    · show (adoptedBlock ref { n with tip := r, rest := rs }).hash = mhash
      simpa [adoptedBlock] using hrhash

theorem demo_phase2go_eq (proposed : List Block) (pick : Nat → Nat) :
    ∀ (todo done : List Node),
      Demo.phase2go proposed pick done todo = phase2go proposed pick done todo := by
  intro todo
  induction todo with
  | nil => intro done; rfl
  | cons n rest ih =>
    intro done
    cases hf : proposed.filter (fun b => decide (b.height = n.current_height + 1)) with
    | nil =>
      rw [phase2go_cons_nil _ _ _ _ _ hf, ← ih]
      conv_lhs => rw [Demo.phase2go]
      rw [hf]
    | cons v vs =>
      rw [phase2go_cons_sel _ _ _ _ _ _ _ hf, ← ih]
      conv_lhs => rw [Demo.phase2go]
      rw [hf]

theorem phase2go_length (proposed : List Block) (pick : Nat → Nat) :
    ∀ (todo done : List Node),
      (phase2go proposed pick done todo).length = done.length + todo.length := by
  intro todo
  induction todo with
  | nil =>
    intro done
    simp [phase2go_nil]
  | cons n rest ih =>
    intro done
    cases hf : proposed.filter (fun b => decide (b.height = n.current_height + 1)) with
    | nil =>
      rw [phase2go_cons_nil _ _ _ _ _ hf, ih]
      simp only [List.length_append, List.length_cons, List.length_nil]
      omega
    | cons v vs =>
      rw [phase2go_cons_sel _ _ _ _ _ _ _ hf, ih]
      simp only [List.length_append, List.length_cons, List.length_nil]
      omega

theorem demo_round_of_ne_nil (hs : Nat → String) (pick : Nat → Nat)
    {ns : List Node} (hne : ns ≠ []) :
    Demo.random_consensus_round hs pick ns =
      some (phase2go (ns.enum.map fun p => p.2.propose_block (hs p.1)) pick [] ns,
        (phase2go (ns.enum.map fun p => p.2.propose_block (hs p.1)) pick [] ns).map
          fun n => (n.node_id, n.current_height, n.tip.hash.take 6)) := by
  have hlen : (phase2go (ns.enum.map fun p => p.2.propose_block (hs p.1))
      pick [] ns).length = ns.length := by
    rw [phase2go_length]
    simp
  have hne2 : phase2go (ns.enum.map fun p => p.2.propose_block (hs p.1))
      pick [] ns ≠ [] := by
    intro h
    apply hne
    rw [h] at hlen
    exact List.length_eq_zero.mp hlen.symm
  have hh : heightsOf (phase2go (ns.enum.map fun p => p.2.propose_block (hs p.1))
      pick [] ns) ≠ [] := by
    unfold heightsOf
    simpa [List.map_eq_nil] using hne2
  obtain ⟨mh, hmh⟩ := pyMax_buildCounts_some hh
  simp only [Demo.random_consensus_round, demo_phase2go_eq]
  rw [hmh]

theorem forall₂_mem_right {β γ : Type} {R : β → γ → Prop} :
    ∀ {l1 : List β} {l2 : List γ}, List.Forall₂ R l1 l2 →
      ∀ y ∈ l2, ∃ x ∈ l1, R x y := by
  intro l1 l2 h
  induction h with
  | nil =>
    intro y hy
    cases hy
  | cons hr _ ih =>
    intro y hy
    rcases List.mem_cons.mp hy with rfl | hy
    · exact ⟨_, by simp, hr⟩
    · obtain ⟨x, hx, hR⟩ := ih y hy
      exact ⟨x, by simp [hx], hR⟩

theorem phase2go_uniform {proposed : List Block} {pick : Nat → Nat} {H : Nat} {T : String}
    (hp : ∀ b ∈ proposed, b.height = H + 1 ∧ b.parent_hash = some T) :
    ∀ (todo done : List Node), proposed ≠ [] →
      (∀ n ∈ todo, n.current_height = H ∧ n.tip.hash = T) →
      ∃ upd, phase2go proposed pick done todo = done ++ upd ∧
        List.Forall₂ (fun n n2 => ∃ b ∈ proposed,
          n2 = { n with tip := b, rest := n.tip :: n.rest }) todo upd := by
  intro todo
  induction todo with
  | nil =>
    intro done _ _
    exact ⟨[], by simp [phase2go_nil], List.Forall₂.nil⟩
  | cons n todo ih =>
    intro done hne hu
    have hn := hu n (by simp)
    have hfilter : proposed.filter
        (fun b => decide (b.height = n.current_height + 1)) = proposed := by
      rw [List.filter_eq_self]
      intro b hb
      simp [(hp b hb).1, hn.1]
    rcases List.exists_cons_of_ne_nil hne with ⟨v, vs, hpr⟩
    have hstep := phase2go_cons_sel proposed pick done n todo v vs (hfilter.trans hpr)
    have hchmem : (v :: vs).get
        ⟨pick done.length % (vs.length + 1), Nat.mod_lt _ (Nat.succ_pos _)⟩ ∈ proposed := by
      rw [hpr]
      exact List.get_mem _ _ _
    obtain ⟨hch1, hch2⟩ := hp _ hchmem
    have hadd : n.add_block ((v :: vs).get
        ⟨pick done.length % (vs.length + 1), Nat.mod_lt _ (Nat.succ_pos _)⟩) =
        { n with
          tip := (v :: vs).get
            ⟨pick done.length % (vs.length + 1), Nat.mod_lt _ (Nat.succ_pos _)⟩,
          rest := n.tip :: n.rest } :=
      add_block_pos (by rw [hch1, hn.1]) (by rw [hch2, hn.2])
    obtain ⟨upd, hupd, hfa⟩ :=
      ih (done ++ [n.add_block ((v :: vs).get
        ⟨pick done.length % (vs.length + 1), Nat.mod_lt _ (Nat.succ_pos _)⟩)]) hne
        (fun x hx => hu x (by simp [hx]))
    refine ⟨n.add_block ((v :: vs).get
        ⟨pick done.length % (vs.length + 1), Nat.mod_lt _ (Nat.succ_pos _)⟩) :: upd, ?_, ?_⟩
    · rw [hstep, hupd, List.append_assoc]
      rfl
    · exact List.Forall₂.cons ⟨_, hchmem, hadd⟩ hfa

/-- C1: in phase 2, processing each node in node order, the candidate set is
the full proposal list filtered only by `height = current_height + 1` (the
parent hash is not checked); a non-empty candidate set leads to `add_block`
of some chosen candidate (for every random choice), and a chosen block whose
parent hash differs from the node's tip hash leaves the node unchanged
(silent rejection); an empty candidate set leads to exactly one rollback
when the maximum current height over all nodes at that moment (partial
progress of already-processed nodes included) exceeds the node's height, and
to no change otherwise. -/
theorem spec_c1 (proposed : List Block) (pick : Nat → Nat) (done : List Node)
    (n : Node) (todo : List Node) :
    ∃ n2, phase2go proposed pick done (n :: todo) =
        phase2go proposed pick (done ++ [n2]) todo ∧
      (proposed.filter (fun b => decide (b.height = n.current_height + 1)) = [] →
        (n.current_height < maxHeightOf (done ++ n :: todo) →
          n2 = n.discard_last_block) ∧
        (¬ n.current_height < maxHeightOf (done ++ n :: todo) → n2 = n)) ∧
      (∀ v vs, proposed.filter
          (fun b => decide (b.height = n.current_height + 1)) = v :: vs →
        ∃ b ∈ v :: vs, n2 = n.add_block b ∧
          (b.parent_hash ≠ some n.tip.hash → n2 = n)) := by
  cases hf : proposed.filter (fun b => decide (b.height = n.current_height + 1)) with
  | nil =>
    refine ⟨if n.current_height < maxHeightOf (done ++ n :: todo) then
        n.discard_last_block else n, phase2go_cons_nil _ _ _ _ _ hf, ?_, ?_⟩
    · intro _
      constructor
      · intro h
        rw [if_pos h]
      · intro h
        rw [if_neg h]
    · intro v vs hvs
      cases hvs
  | cons v vs =>
    refine ⟨n.add_block ((v :: vs).get
        ⟨pick done.length % (vs.length + 1), Nat.mod_lt _ (Nat.succ_pos _)⟩),
      phase2go_cons_sel _ _ _ _ _ _ _ hf, ?_, ?_⟩
    · intro h
      cases h
    · intro v2 vs2 hvs
      injection hvs with e1 e2
      subst e1
      subst e2
      refine ⟨_, List.get_mem _ _ _, rfl, ?_⟩
      intro hpar
      exact add_block_neg_parent hpar

/-- C2: in phase 4, the synthesized adopted block copies height and hash
from the reference block and takes the adopting node's current tip hash as
parent; whenever an adoption is attempted for a node with
`current_height + 1 = reference.height` the `add_block` guard holds by
construction, so the append succeeds and leaves the node at the majority
height with the majority hash — both when the node was behind and when it
was at the majority height with a conflicting tip (after its rollback). -/
theorem spec_c2 (mh : Nat) (mhash : String) (ref : Block) (n : Node)
    (h1 : ref.height = mh) (h2 : ref.hash = mhash) :
    (adoptedBlock ref n =
      { height := ref.height, parent_hash := some n.tip.hash, hash := ref.hash }) ∧
    (n.current_height + 1 = ref.height →
      n.add_block (adoptedBlock ref n) =
        { n with tip := adoptedBlock ref n, rest := n.tip :: n.rest } ∧
      (n.add_block (adoptedBlock ref n)).current_height = mh ∧
      (n.add_block (adoptedBlock ref n)).tip.hash = mhash) ∧
    (n.current_height + 1 = mh →
      (phase4node mh mhash ref n).current_height = mh ∧
      (phase4node mh mhash ref n).tip.hash = mhash) ∧
    (∀ r rs, n.current_height = mh → n.rest = r :: rs → r.height + 1 = mh →
      (phase4node mh mhash ref n).current_height = mh ∧
      (phase4node mh mhash ref n).tip.hash = mhash) := by
  refine ⟨rfl, ?_, ?_, ?_⟩
  · intro hadopt
    have hpos := add_block_pos
      (b := adoptedBlock ref n) (n := n)
      (by simpa [adoptedBlock] using hadopt.symm) (by simp [adoptedBlock])
    refine ⟨hpos, ?_, ?_⟩
    · rw [hpos]
      show (adoptedBlock ref n).height = mh
      simpa [adoptedBlock] using h1
    · rw [hpos]
      show (adoptedBlock ref n).hash = mhash
      simpa [adoptedBlock] using h2
  · intro hbehind
    unfold phase4node
    rw [if_pos (by omega), rollbackWhile_of_lt (by omega : n.current_height < mh),
      if_pos (by omega)]
    have hpos := add_block_pos
      (b := adoptedBlock ref n) (n := n)
      (by simp [adoptedBlock]; omega) (by simp [adoptedBlock])
    rw [hpos]
    constructor
    · show (adoptedBlock ref n).height = mh
      simpa [adoptedBlock] using h1
    · show (adoptedBlock ref n).hash = mhash
      simpa [adoptedBlock] using h2
  · intro r rs hh hrest hr
    exact phase4node_same_height hh hrest hr h1 h2

/-- Witness for C2 at a concrete reference block and a fresh node. -/
theorem spec_c2_witness :
    (({ height := 1, parent_hash := some "q", hash := "r" } : Block).height = 1) ∧
    (({ height := 1, parent_hash := some "q", hash := "r" } : Block).hash = "r") ∧
    ((adoptedBlock { height := 1, parent_hash := some "q", hash := "r" } (create_node 0) =
      { height := ({ height := 1, parent_hash := some "q", hash := "r" } : Block).height,
        parent_hash := some (create_node 0).tip.hash,
        hash := ({ height := 1, parent_hash := some "q", hash := "r" } : Block).hash }) ∧
    ((create_node 0).current_height + 1 =
        ({ height := 1, parent_hash := some "q", hash := "r" } : Block).height →
      (create_node 0).add_block
          (adoptedBlock { height := 1, parent_hash := some "q", hash := "r" } (create_node 0)) =
        { create_node 0 with
          tip := adoptedBlock { height := 1, parent_hash := some "q", hash := "r" } (create_node 0),
          rest := (create_node 0).tip :: (create_node 0).rest } ∧
      ((create_node 0).add_block
          (adoptedBlock { height := 1, parent_hash := some "q", hash := "r" }
            (create_node 0))).current_height = 1 ∧
      ((create_node 0).add_block
          (adoptedBlock { height := 1, parent_hash := some "q", hash := "r" }
            (create_node 0))).tip.hash = "r") ∧
    ((create_node 0).current_height + 1 = 1 →
      (phase4node 1 "r" { height := 1, parent_hash := some "q", hash := "r" }
          (create_node 0)).current_height = 1 ∧
      (phase4node 1 "r" { height := 1, parent_hash := some "q", hash := "r" }
          (create_node 0)).tip.hash = "r") ∧
    (∀ r rs, (create_node 0).current_height = 1 → (create_node 0).rest = r :: rs →
        r.height + 1 = 1 →
      (phase4node 1 "r" { height := 1, parent_hash := some "q", hash := "r" }
          (create_node 0)).current_height = 1 ∧
      (phase4node 1 "r" { height := 1, parent_hash := some "q", hash := "r" }
          (create_node 0)).tip.hash = "r")) :=
  ⟨rfl, rfl,
    spec_c2 1 "r" { height := 1, parent_hash := some "q", hash := "r" } (create_node 0) rfl rfl⟩

/-- C3: phase 3's majority height is the height attaining the maximum count
in the height-to-count dict built by scanning nodes in node order, ties
broken by the first height encountered in node order attaining the maximum
count, and the majority hash is chosen the same way among the tip hashes of
the nodes at the majority height. -/
theorem spec_c3 (nodes : List Node) (hne : nodes ≠ []) :
    ∃ mh mhash,
      pyMax (buildCounts (heightsOf nodes)) = some mh ∧
      majorityProps (heightsOf nodes) mh ∧
      pyMax (buildCounts (tipsAt nodes mh)) = some mhash ∧
      majorityProps (tipsAt nodes mh) mhash := by
  have h1 : heightsOf nodes ≠ [] := by
    unfold heightsOf
    simpa [List.map_eq_nil] using hne
  obtain ⟨mh, hmh⟩ := pyMax_buildCounts_some h1
  have hmaj1 := pyMax_buildCounts_majority hmh
  have h2 : tipsAt nodes mh ≠ [] := by
    unfold tipsAt
    rcases List.mem_map.mp hmaj1.1 with ⟨x, hx, hxh⟩
    intro hemp
    rw [List.map_eq_nil] at hemp
    have hxin : x ∈ nodes.filter fun n => decide (n.current_height = mh) :=
      List.mem_filter.mpr ⟨hx, by simp [hxh]⟩
    rw [hemp] at hxin
    cases hxin
  obtain ⟨mhash, hmhash⟩ := pyMax_buildCounts_some h2
  exact ⟨mh, mhash, hmh, hmaj1, hmhash, pyMax_buildCounts_majority hmhash⟩

/-- Witness for C3 on a one-node collection. -/
theorem spec_c3_witness :
    ∃ mh mhash,
      pyMax (buildCounts (heightsOf [create_node 0])) = some mh ∧
      majorityProps (heightsOf [create_node 0]) mh ∧
      pyMax (buildCounts (tipsAt [create_node 0] mh)) = some mhash ∧
      majorityProps (tipsAt [create_node 0] mh) mhash :=
  spec_c3 [create_node 0] (List.cons_ne_nil _ _)

/-- C4 as stated is false: Python's `add_block` has no return statement, so
it returns `None` rather than the claimed boolean; here is a block
satisfying both guard conditions for which the call still does not return
`True`. -/
theorem spec_c4_cex :
    ¬ ((create_node 0).add_block_ret
        { height := 1, parent_hash := some FIXED_GENESIS_HASH, hash := "aa" } = some true ↔
      ({ height := 1, parent_hash := some FIXED_GENESIS_HASH, hash := "aa" } : Block).height =
          (create_node 0).current_height + 1 ∧
        ({ height := 1, parent_hash := some FIXED_GENESIS_HASH, hash := "aa" } : Block).parent_hash =
          some (create_node 0).tip.hash) := by
  decide

/-- C4 amended: `add_block` appends `b` iff `b.height = current_height + 1`
and `b.parent_hash` is the tip's hash; on an append the height grows by
exactly one, the tip becomes `b` and the chain grows by one; otherwise the
node is unchanged (silent no-op); the Python method returns `None`, not a
boolean. -/
theorem spec_c4 (n : Node) (b : Block) :
    (b.height = n.current_height + 1 ∧ b.parent_hash = some n.tip.hash →
      n.add_block b = { n with tip := b, rest := n.tip :: n.rest } ∧
      (n.add_block b).current_height = n.current_height + 1 ∧
      (n.add_block b).tip.hash = b.hash ∧
      (n.add_block b).chainLength = n.chainLength + 1) ∧
    (¬ (b.height = n.current_height + 1 ∧ b.parent_hash = some n.tip.hash) →
      n.add_block b = n) ∧
    n.add_block_ret b = none := by
  refine ⟨?_, ?_, rfl⟩
  · rintro ⟨h1, h2⟩
    have hpos := add_block_pos h1 h2
    refine ⟨hpos, ?_, ?_, ?_⟩
    · rw [hpos]
      exact h1
    · rw [hpos]
    · rw [hpos]
      simp [Node.chainLength, Node.chain]
  · intro hne
    by_cases h1 : b.height = n.current_height + 1
    · exact add_block_neg_parent fun h2 => hne ⟨h1, h2⟩
    · exact add_block_neg_height h1

/-- C5: five nodes starting at one common height and tip identifier end one
round at the next height with one common tip identifier, for every outcome
of the random hash drawings and candidate selections. -/
theorem spec_c5 (hs : Nat → String) (pick : Nat → Nat) (ns : List Node)
    (H : Nat) (T : String) (hlen : ns.length = 5)
    (hstart : ∀ n ∈ ns, n.current_height = H ∧ n.tip.hash = T) :
    ∃ X, ∀ n2 ∈ random_consensus_round hs pick ns,
      n2.current_height = H + 1 ∧ n2.tip.hash = X := by
  have hnsne : ns ≠ [] := by
    intro h
    rw [h] at hlen
    cases hlen
  have hpne : (ns.enum.map fun p => p.2.propose_block (hs p.1)) ≠ [] := by
    intro h
    rw [List.map_eq_nil] at h
    apply hnsne
    have := congrArg List.length h
    rw [List.enum_length] at this
    exact List.length_eq_zero.mp this
  have hp : ∀ b ∈ ns.enum.map fun p => p.2.propose_block (hs p.1),
      b.height = H + 1 ∧ b.parent_hash = some T := by
    intro b hb
    rcases List.mem_map.mp hb with ⟨⟨i, x⟩, hx, rfl⟩
    have hxmem : x ∈ ns := by
      have hsnd := List.enum_map_snd ns
      exact hsnd ▸ List.mem_map_of_mem Prod.snd hx
    obtain ⟨hxh, hxt⟩ := hstart x hxmem
    constructor
    · show x.tip.height + 1 = H + 1
      rw [show x.tip.height = H from hxh]
    · show some x.tip.hash = some T
      rw [hxt]
  obtain ⟨upd, hupd, hfa⟩ := phase2go_uniform hp ns [] hpne hstart
  have hupd2 : phase2go (ns.enum.map fun p => p.2.propose_block (hs p.1)) pick [] ns =
      upd := by
    simpa using hupd
  have hfact : ∀ n2 ∈ upd, n2.current_height = H + 1 ∧
      ∃ r rs, n2.rest = r :: rs ∧ r.height + 1 = H + 1 := by
    intro n2 h2
    obtain ⟨n, hnmem, hR⟩ := forall₂_mem_right hfa n2 h2
    rcases hR with ⟨b, hbmem, rfl⟩
    obtain ⟨hb1, _⟩ := hp b hbmem
    obtain ⟨hnh, _⟩ := hstart n hnmem
    refine ⟨hb1, n.tip, n.rest, rfl, ?_⟩
    rw [show n.tip.height = H from hnh]
  have hne2 : upd ≠ [] := by
    intro h
    rw [h] at hfa
    exact hnsne (List.forall₂_nil_right_iff.mp hfa)
  have hh2 : ∀ x ∈ heightsOf upd, x = H + 1 := by
    intro x hx
    rcases List.mem_map.mp hx with ⟨n2, hn2, rfl⟩
    exact (hfact n2 hn2).1
  have hmh : pyMax (buildCounts (heightsOf upd)) = some (H + 1) :=
    pyMax_buildCounts_const (by unfold heightsOf; simpa [List.map_eq_nil] using hne2) hh2
  have hfiltereq : (upd.filter fun n => decide (n.current_height = H + 1)) = upd := by
    rw [List.filter_eq_self]
    intro n2 hn2
    simp [(hfact n2 hn2).1]
  have htips : tipsAt upd (H + 1) = upd.map fun n => n.tip.hash := by
    unfold tipsAt
    rw [hfiltereq]
  have htipsne : tipsAt upd (H + 1) ≠ [] := by
    rw [htips]
    simpa [List.map_eq_nil] using hne2
  obtain ⟨X, hX⟩ := pyMax_buildCounts_some htipsne
  have hXmem : X ∈ tipsAt upd (H + 1) := pyMax_buildCounts_mem hX
  have hexists : ∃ n ∈ upd, n.current_height = H + 1 ∧ n.tip.hash = X := by
    rw [htips] at hXmem
    rcases List.mem_map.mp hXmem with ⟨n2, hn2, rfl⟩
    exact ⟨n2, hn2, (hfact n2 hn2).1, rfl⟩
  obtain ⟨ref, href, hrefh, hrefhash⟩ := findReference_of_exists hexists
  refine ⟨X, ?_⟩
  intro n2 hn2
  simp only [random_consensus_round] at hn2
  rw [hupd2, phase34_eq hmh hX href] at hn2
  rcases List.mem_map.mp hn2 with ⟨m, hm, rfl⟩
  obtain ⟨hmh2, r, rs, hrest, hr⟩ := hfact m hm
  exact phase4node_same_height hmh2 hrest hr hrefh hrefhash

/-- Witness for C5: five fresh nodes, one fixed hash stream and one fixed
selection rule. -/
theorem spec_c5_witness :
    ((List.range 5).map create_node).length = 5 ∧
    (∀ n ∈ (List.range 5).map create_node,
      n.current_height = 0 ∧ n.tip.hash = FIXED_GENESIS_HASH) ∧
    ∃ X, ∀ n2 ∈ random_consensus_round (fun _ => "a") (fun _ => 0)
        ((List.range 5).map create_node),
      n2.current_height = 0 + 1 ∧ n2.tip.hash = X :=
  ⟨rfl, by decide,
    spec_c5 (fun _ => "a") (fun _ => 0) ((List.range 5).map create_node) 0
      FIXED_GENESIS_HASH rfl (by decide)⟩

/-- C6 as stated is false: no reachable state, after a further round, holds a
node whose chain breaks the adjacency invariant — `add_block` (through which
every append, the adoption included, goes) re-establishes exactly the
adjacency conditions, so the invariant is preserved. -/
theorem spec_c6_cex :
    ¬ ∃ (ns : List Node) (hs : Nat → String) (pick : Nat → Nat),
        Reachable ns ∧ ∃ n ∈ random_consensus_round hs pick ns, ¬ chainInv n := by
  rintro ⟨ns, hs, pick, hreach, n, hn, hninv⟩
  exact hninv (chainInv_reachable (Reachable.step hs pick ns hreach) n hn)

/-- C6 amended: the chain adjacency invariant is never violated — every node
of every reachable state, in particular after any `random_consensus_round`
(whose phase 4 performs the adoptions), satisfies it. -/
theorem spec_c6 (ns : List Node) (hs : Nat → String) (pick : Nat → Nat)
    (hreach : Reachable ns) :
    ∀ n ∈ random_consensus_round hs pick ns, chainInv n :=
  chainInv_reachable (Reachable.step hs pick ns hreach)

/-- Witness for C6: the invariant after one concrete round from one fresh
node. -/
theorem spec_c6_witness :
    chainInv ({ node_id := 0,
                tip := { height := 1, parent_hash := some FIXED_GENESIS_HASH, hash := "a" },
                rest := [GENESIS_BLOCK] } : Node) :=
  spec_c6 [create_node 0] (fun _ => "a") (fun _ => 0) (Reachable.init [0]) _ (by decide)

/-- C7: `discard_last_block` removes the chain's last element iff the chain
has more than one entry and is a silent no-op otherwise; a removal shortens
the chain by exactly one and (on a chain satisfying the adjacency invariant,
as every reachable chain does) lowers the height by exactly one; the chain
length never drops below one and the genesis block is never removed: every
reachable node still carries the genesis block at the bottom. -/
theorem spec_c7 :
    (∀ n : Node, n.rest = [] → n.discard_last_block = n) ∧
    (∀ (n : Node) (b : Block) (bs : List Block), n.rest = b :: bs →
      n.discard_last_block.chain = n.chain.dropLast ∧
      n.discard_last_block.chainLength + 1 = n.chainLength ∧
      (chainInv n → n.discard_last_block.current_height + 1 = n.current_height)) ∧
    (∀ n : Node, 1 ≤ n.chainLength ∧ 1 ≤ n.discard_last_block.chainLength) ∧
    (∀ ns : List Node, Reachable ns → ∀ n ∈ ns,
      chainInv n ∧ n.lastBlock = GENESIS_BLOCK) := by
  refine ⟨fun n h => discard_nil h, ?_, ?_, ?_⟩
  · intro n b bs hr
    have hd := discard_cons hr
    refine ⟨?_, ?_, ?_⟩
    · rw [hd]
      simp [Node.chain, hr, List.dropLast_concat]
    · rw [hd]
      simp [Node.chainLength, Node.chain, hr]
    · intro hinv
      rw [hd]
      show b.height + 1 = n.tip.height
      exact (tip_height_of_inv hinv hr).symm
  · intro n
    constructor
    · simp [Node.chainLength, Node.chain]
    · simp [Node.chainLength, Node.chain]
  · intro ns hreach n hn
    exact ⟨chainInv_reachable hreach n hn, lastBlock_reachable hreach n hn⟩

/-- C8 as stated is false: on two fresh nodes whose phase-2 selections
diverge, the demo round (which never adopts) succeeds but leaves the nodes
in a different state than the main round, whose phase 4 makes the second
node adopt the majority block. -/
theorem spec_c8_cex :
    (Demo.random_consensus_round (fun i => if i = 0 then "a" else "b") (fun i => i)
        [create_node 0, create_node 1]).map Prod.fst ≠
      some (random_consensus_round (fun i => if i = 0 then "a" else "b") (fun i => i)
        [create_node 0, create_node 1]) := by
  decide

/-- C8 amended: on the empty node collection the demo round raises (its
majority computation has no emptiness guard) while the main round returns
normally with no effect; on every non-empty collection the demo round
succeeds, its state transition duplicates the main engine's phases 1 and 2
exactly — composing it with the main engine's aggregate-and-reconcile stage
yields precisely the main engine's round — but the demo omits that
reconcile stage itself, so the two rounds' final states agree only when the
main round's phase 4 changes nothing. -/
theorem spec_c8 (hs : Nat → String) (pick : Nat → Nat) :
    (Demo.random_consensus_round hs pick [] = none ∧
      random_consensus_round hs pick [] = []) ∧
    ∀ ns : List Node, ns ≠ [] →
      ∃ nodes2 summary,
        Demo.random_consensus_round hs pick ns = some (nodes2, summary) ∧
        nodes2 = phase2go (ns.enum.map fun p => p.2.propose_block (hs p.1)) pick [] ns ∧
        phase34 nodes2 = random_consensus_round hs pick ns := by
  refine ⟨⟨rfl, rfl⟩, ?_⟩
  intro ns hne
  exact ⟨_, _, demo_round_of_ne_nil hs pick hne, rfl, rfl⟩

/-- C9: the round engine is total over every node collection; a round on the
empty collection terminates with no effect, a missing majority reference
block makes the reconcile stage a no-op, and a rollback at genesis is a
no-op. -/
theorem spec_c9 :
    (∀ (hs : Nat → String) (pick : Nat → Nat),
      random_consensus_round hs pick [] = []) ∧
    (∀ n : Node, n.rest = [] → n.discard_last_block = n) ∧
    (∀ (mh : Nat) (mhash : String) (ns : List Node),
      findReference mh mhash ns = none → reconcile mh mhash ns = ns) := by
  refine ⟨?_, fun n h => discard_nil h, ?_⟩
  · intro hs pick
    rfl
  · intro mh mhash ns h
    unfold reconcile
    rw [h]

/-- C10: in phase 4's behind branch the rollback loop body never runs (its
guard is false on entry), so a node more than one below the majority height
is left entirely unchanged, and a node exactly one below it goes straight to
the adoption attempt. -/
theorem spec_c10 (mh : Nat) (mhash : String) (ref : Block) (n : Node)
    (href : ref.height = mh) :
    (n.current_height < mh → rollbackWhile mh n = n) ∧
    (n.current_height + 1 < mh → phase4node mh mhash ref n = n) ∧
    (n.current_height + 1 = mh →
      phase4node mh mhash ref n = n.add_block (adoptedBlock ref n)) := by
  refine ⟨fun h => rollbackWhile_of_lt h, ?_, ?_⟩
  · intro h
    unfold phase4node
    rw [if_pos (by omega), rollbackWhile_of_lt (by omega : n.current_height < mh),
      if_neg (by omega)]
  · intro h
    unfold phase4node
    rw [if_pos (by omega), rollbackWhile_of_lt (by omega : n.current_height < mh),
      if_pos (by omega)]

/-- Witness for C10 at majority height 2 over a fresh node of height 0. -/
theorem spec_c10_witness :
    (({ height := 2, parent_hash := none, hash := "r" } : Block).height = 2) ∧
    (((create_node 0).current_height < 2 → rollbackWhile 2 (create_node 0) = create_node 0) ∧
    ((create_node 0).current_height + 1 < 2 →
      phase4node 2 "m" { height := 2, parent_hash := none, hash := "r" } (create_node 0) =
        create_node 0) ∧
    ((create_node 0).current_height + 1 = 2 →
      phase4node 2 "m" { height := 2, parent_hash := none, hash := "r" } (create_node 0) =
        (create_node 0).add_block
          (adoptedBlock { height := 2, parent_hash := none, hash := "r" } (create_node 0)))) :=
  ⟨rfl, spec_c10 2 "m" { height := 2, parent_hash := none, hash := "r" } (create_node 0) rfl⟩

end RandomConsensus
